import Mathlib

/-!
Verification of the comparison engine of the `cliche` repository: the
encoding-aware diff algorithms (`src/verify/exact.rs`, `src/verify/diff.rs`,
`src/verify/pattern.rs`) and the chunking / pattern-scanning building blocks
(`src/chunk/line.rs`, `src/chunk/pattern.rs`).

Texts are embedded as `List Char`, byte streams as `List Nat` (one entry per
byte).  Rust's strict and lossy UTF-8 decoding (`str::from_utf8`,
`String::from_utf8_lossy`) are modelled by an explicit UTF-8 state machine
below.  Fallible Rust code (`todo!()` panics) is modelled with `Except`.
-/

deriving instance DecidableEq for Except

namespace Cliche

/-- UTF-8 encoded byte size of one character, as Rust computes `str::len` for
the corresponding text. -/
def charSize (c : Char) : Nat :=
  if c.toNat ≤ 0x7F then 1
  else if c.toNat ≤ 0x7FF then 2
  else if c.toNat ≤ 0xFFFF then 3
  else 4

/-- Byte length of a text, `str::len` in Rust. -/
def utf8Len (s : List Char) : Nat := (s.map charSize).sum

/-- Rust `str::split_inclusive('\n')`: split after each newline, the last
piece is kept even without a trailing newline, the empty string yields no
pieces. -/
def splitInclusive : List Char → List (List Char)
  | [] => []
  | c :: cs =>
    if c = '\n' then [c] :: splitInclusive cs
    else
      match splitInclusive cs with
      | [] => [[c]]
      | l :: ls => (c :: l) :: ls

/-- Number of newline characters in a text. -/
def countNl (s : List Char) : Nat := s.countP (fun c => c = '\n')

/-- Abbreviation turning a string literal into the character list embedding. -/
def sl (s : String) : List Char := s.toList

/-- The Unicode replacement character substituted by lossy decoding. -/
def replChar : Char := '�'

/-! ### UTF-8 decoding (model of Rust `str::from_utf8` / `String::from_utf8_lossy`)

The decoder is a byte-level state machine.  `startByte` classifies a byte in
the initial state.  A mid-sequence state `MidSt` records how many continuation
bytes are still expected, the accumulated code point, and the admissible
window for the next byte (narrowed second bytes rule out overlong encodings
and surrogates, exactly as Rust's validator does). -/

structure MidSt where
  need : Nat
  acc : Nat
  lo : Nat
  hi : Nat
  deriving DecidableEq, Repr

inductive StartR where
  | chr (c : Nat)
  | mid (st : MidSt)
  | bad
  deriving DecidableEq, Repr

/-- Classify a byte seen in the initial decoder state. -/
def startByte (b : Nat) : StartR :=
  if b ≤ 0x7F then .chr b
  else if 0xC2 ≤ b ∧ b ≤ 0xDF then .mid ⟨1, b - 0xC0, 0x80, 0xBF⟩
  else if b = 0xE0 then .mid ⟨2, 0, 0xA0, 0xBF⟩
  else if 0xE1 ≤ b ∧ b ≤ 0xEC then .mid ⟨2, b - 0xE0, 0x80, 0xBF⟩
  else if b = 0xED then .mid ⟨2, 0xD, 0x80, 0x9F⟩
  else if 0xEE ≤ b ∧ b ≤ 0xEF then .mid ⟨2, b - 0xE0, 0x80, 0xBF⟩
  else if b = 0xF0 then .mid ⟨3, 0, 0x90, 0xBF⟩
  else if 0xF1 ≤ b ∧ b ≤ 0xF3 then .mid ⟨3, b - 0xF0, 0x80, 0xBF⟩
  else if b = 0xF4 then .mid ⟨3, 4, 0x80, 0x8F⟩
  else .bad

/-- Lossy UTF-8 decoding (`String::from_utf8_lossy`): each maximal ill-formed
subpart is replaced by one `replChar`; on an unexpected byte inside a
sequence, the pending sequence yields a replacement and the byte is
reinterpreted from the initial state. -/
def utf8Go : Option MidSt → List Nat → List Char
  | none, [] => []
  | some _, [] => [replChar]
  | none, b :: bs =>
    match startByte b with
    | .chr c => Char.ofNat c :: utf8Go none bs
    | .bad => replChar :: utf8Go none bs
    | .mid st => utf8Go (some st) bs
  | some ⟨n, a, lo, hi⟩, b :: bs =>
    if lo ≤ b ∧ b ≤ hi then
      if n = 1 then Char.ofNat (a * 64 + (b - 0x80)) :: utf8Go none bs
      else utf8Go (some ⟨n - 1, a * 64 + (b - 0x80), 0x80, 0xBF⟩) bs
    else
      replChar ::
        (match startByte b with
         | .chr c => Char.ofNat c :: utf8Go none bs
         | .bad => replChar :: utf8Go none bs
         | .mid st => utf8Go (some st) bs)

/-- Strict UTF-8 decoding (`str::from_utf8`): any ill-formed byte is an
error. -/
def utf8GoStrict : Option MidSt → List Nat → Option (List Char)
  | none, [] => some []
  | some _, [] => none
  | none, b :: bs =>
    match startByte b with
    | .chr c => (utf8GoStrict none bs).map (fun s => Char.ofNat c :: s)
    | .bad => none
    | .mid st => utf8GoStrict (some st) bs
  | some ⟨n, a, lo, hi⟩, b :: bs =>
    if lo ≤ b ∧ b ≤ hi then
      if n = 1 then (utf8GoStrict none bs).map (fun s => Char.ofNat (a * 64 + (b - 0x80)) :: s)
      else utf8GoStrict (some ⟨n - 1, a * 64 + (b - 0x80), 0x80, 0xBF⟩) bs
    else none

/-- `String::from_utf8_lossy`. -/
def utf8DecodeLossy (bs : List Nat) : List Char := utf8Go none bs

/-- `str::from_utf8`, as an `Option`. -/
def utf8Decode? (bs : List Nat) : Option (List Char) := utf8GoStrict none bs

/-- On bytes that decode strictly, lossy decoding agrees with strict
decoding. -/
theorem utf8Go_eq_of_strict :
    ∀ (bs : List Nat) (st : Option MidSt) (s : List Char),
      utf8GoStrict st bs = some s → utf8Go st bs = s := by
  intro bs
  induction bs with
  | nil =>
    intro st s h
    cases st with
    | none => simp [utf8GoStrict] at h; simp [utf8Go, h]
    | some st => simp [utf8GoStrict] at h
  | cons b bs ih =>
    intro st s h
    cases st with
    | none =>
      simp only [utf8GoStrict] at h
      simp only [utf8Go]
      cases hsb : startByte b with
      | chr c =>
        rw [hsb] at h
        cases hrec : utf8GoStrict none bs with
        | none => rw [hrec] at h; simp at h
        | some s' =>
          rw [hrec] at h
          simp only [Option.map_some] at h
          cases h
          simp [ih none s' hrec]
      | bad => rw [hsb] at h; simp at h
      | mid st => rw [hsb] at h; exact ih _ _ h
    | some st =>
      obtain ⟨n, a, lo, hi⟩ := st
      simp only [utf8GoStrict] at h
      simp only [utf8Go]
      by_cases hw : lo ≤ b ∧ b ≤ hi
      · rw [if_pos hw] at h; rw [if_pos hw]
        by_cases hn : n = 1
        · rw [if_pos hn] at h; rw [if_pos hn]
          cases hrec : utf8GoStrict none bs with
          | none => rw [hrec] at h; simp at h
          | some s' =>
            rw [hrec] at h
            injection h with h2
            subst h2
            simp [ih none s' hrec]
        · rw [if_neg hn] at h; rw [if_neg hn]
          exact ih _ _ h
      · rw [if_neg hw] at h; simp at h

theorem utf8DecodeLossy_eq_of_strict {bs : List Nat} {s : List Char}
    (h : utf8Decode? bs = some s) : utf8DecodeLossy bs = s :=
  utf8Go_eq_of_strict bs none s h

/-! ### Diff result types

Modelled from the spec: the `Diff` enum consumed by `verify/mod.rs`,
`verify/exact.rs` and `verify/pattern.rs` (variants `Line{expected, actual,
row}`, `PatternLine{expected, actual, row}` and the reserved `Byte`) is not
present under `src/` in this revision — `src/verify/diff.rs` holds an older
enum (`Line{expected, actual, number}` and `Byte`) which is kept separately
below as `DiffC` for the chunked comparator of that file. -/

inductive Diff where
  | Line (expected : Option (List Char)) (actual : Option (List Char)) (row : Nat)
  | PatternLine (expected : Option (List Char)) (actual : Option (List Char)) (row : Nat)
  | Byte
  deriving DecidableEq, Repr

/-- The `Diff` enum literally present in `src/verify/diff.rs` (older
revision, field `number`). -/
inductive DiffC where
  | Line (expected : Option (List Char)) (actual : Option (List Char)) (number : Nat)
  | Byte
  deriving DecidableEq, Repr

/-! ### Exact diff (`src/verify/exact.rs`) -/

/-- The indexed loop of `eval_exact_diff_as_str`: `for line in 0..max_lines`,
comparing `expected_lines.get(line)` with `actual_lines.get(line)`.  The
second `Nat` argument is the number of loop iterations still allowed
(`max_lines - i`). -/
def exLoopF (el al : List (List Char)) : Nat → Nat → Option Diff
  | _, 0 => none
  | i, fuel + 1 =>
    match el[i]?, al[i]? with
    | some e, some a =>
      if e = a then exLoopF el al (i + 1) fuel
      else some (.Line (some e) (some a) (i + 1))
    | none, some a => some (.Line none (some a) (i + 1))
    | some e, none => some (.Line (some e) none (i + 1))
    | none, none => none

/-- `eval_exact_diff_as_str`: split both strings with
`split_inclusive('\n')` and scan indices `0..max(actual.len(),
expected.len())` (note: the source's bound is the *byte length* of the two
strings, not the line count). -/
def evalExactDiffAsStr (expected actual : List Char) : Option Diff :=
  let expectedLines := splitInclusive expected
  let actualLines := splitInclusive actual
  let maxLines := max (utf8Len actual) (utf8Len expected)
  exLoopF expectedLines actualLines 0 maxLines

/-- `eval_exact_diff_as_bytes` is `todo!()`: calling it panics, modelled as
`Except.error`. -/
def evalExactDiffAsBytes (_expected _actual : List Nat) : Except Unit (Option Diff) :=
  .error ()

/-- `eval_exact_diff`: strict decode of `expected`, lossy decode of
`actual`; the byte fallback is taken exactly when `str::from_utf8(expected)`
fails (`String::from_utf8_lossy` is total, so the `(Ok, _)` match arm covers
every case where `expected` decodes). -/
def evalExactDiff (expected actual : List Nat) : Except Unit (Option Diff) :=
  match utf8Decode? expected with
  | some e => .ok (evalExactDiffAsStr e (utf8DecodeLossy actual))
  | none => evalExactDiffAsBytes expected actual

/-- Reference recursion for pairwise line comparison with a running 1-based
row; the bounded index loop of the source is proved equal to it below. -/
def lineDiff : List (List Char) → List (List Char) → Nat → Option Diff
  | [], [], _ => none
  | e :: _, [], row => some (.Line (some e) none row)
  | [], a :: _, row => some (.Line none (some a) row)
  | e :: es, a :: as_, row =>
    if e = a then lineDiff es as_ (row + 1)
    else some (.Line (some e) (some a) row)

theorem drop_get (l : List α) (i : Nat) :
    l.drop i = match l[i]? with
               | none => []
               | some x => x :: l.drop (i + 1) := by
  induction l generalizing i with
  | nil => cases i <;> simp
  | cons x xs ih =>
    cases i with
    | zero => simp
    | succ j => simpa using ih j

theorem exLoopF_eq_lineDiff :
    ∀ (fuel : Nat) (el al : List (List Char)) (i : Nat),
      el.length ≤ i + fuel → al.length ≤ i + fuel →
      exLoopF el al i fuel = lineDiff (el.drop i) (al.drop i) (i + 1) := by
  intro fuel
  induction fuel with
  | zero =>
    intro el al i he ha
    rw [List.drop_eq_nil_of_le (by omega), List.drop_eq_nil_of_le (by omega)]
    rfl
  | succ fuel ih =>
    intro el al i he ha
    rw [drop_get el i, drop_get al i]
    cases hge : el[i]? with
    | none =>
      cases hga : al[i]? with
      | none => simp [exLoopF, hge, hga, lineDiff]
      | some a => simp [exLoopF, hge, hga, lineDiff]
    | some e =>
      cases hga : al[i]? with
      | none => simp [exLoopF, hge, hga, lineDiff]
      | some a =>
        simp only [exLoopF, hge, hga, lineDiff]
        by_cases hea : e = a
        · rw [if_pos hea, if_pos hea]
          exact ih el al (i + 1) (by omega) (by omega)
        · rw [if_neg hea, if_neg hea]

theorem splitInclusive_length_le (s : List Char) :
    (splitInclusive s).length ≤ s.length := by
  induction s with
  | nil => simp [splitInclusive]
  | cons c cs ih =>
    by_cases hc : c = '\n'
    · simp only [splitInclusive, if_pos hc, List.length_cons]
      omega
    · simp only [splitInclusive, if_neg hc]
      cases h : splitInclusive cs with
      | nil => simp
      | cons l ls =>
        rw [h] at ih
        simp only [List.length_cons] at ih ⊢
        omega

theorem length_le_utf8Len (s : List Char) : s.length ≤ utf8Len s := by
  induction s with
  | nil => simp [utf8Len]
  | cons c cs ih =>
    have h1 : 1 ≤ charSize c := by
      unfold charSize
      split <;> try omega
      split <;> try omega
      split <;> omega
    simp only [utf8Len, List.map_cons, List.sum_cons, List.length_cons] at *
    omega

/-- The bounded loop of `eval_exact_diff_as_str` computes the reference
pairwise line diff. -/
theorem evalExactDiffAsStr_eq_lineDiff (e a : List Char) :
    evalExactDiffAsStr e a = lineDiff (splitInclusive e) (splitInclusive a) 1 := by
  have he : (splitInclusive e).length ≤ 0 + max (utf8Len a) (utf8Len e) := by
    have := splitInclusive_length_le e
    have := length_le_utf8Len e
    omega
  have ha : (splitInclusive a).length ≤ 0 + max (utf8Len a) (utf8Len e) := by
    have := splitInclusive_length_le a
    have := length_le_utf8Len a
    omega
  have := exLoopF_eq_lineDiff (max (utf8Len a) (utf8Len e))
    (splitInclusive e) (splitInclusive a) 0 he ha
  simpa [evalExactDiffAsStr] using this

theorem lineDiff_refl : ∀ (l : List (List Char)) (row : Nat), lineDiff l l row = none := by
  intro l
  induction l with
  | nil => intro row; rfl
  | cons x xs ih => intro row; simp [lineDiff, ih]

/-- `lineDiff` reports the first mismatching index. -/
theorem lineDiff_first_mismatch :
    ∀ (i : Nat) (el al : List (List Char)) (row : Nat),
      (∀ j, j < i → el[j]? = al[j]?) →
      el[i]? ≠ al[i]? →
      lineDiff el al row = some (.Line el[i]? al[i]? (row + i)) := by
  intro i
  induction i with
  | zero =>
    intro el al row _ hne
    cases el with
    | nil =>
      cases al with
      | nil => simp at hne
      | cons a as_ => simp [lineDiff]
    | cons e es =>
      cases al with
      | nil => simp [lineDiff]
      | cons a as_ =>
        have hea : e ≠ a := by
          intro h; apply hne; simp [h]
        simp [lineDiff, hea]
  | succ i ih =>
    intro el al row hpre hne
    cases el with
    | nil =>
      cases al with
      | nil => simp at hne
      | cons a as_ =>
        have := hpre 0 (by omega)
        simp at this
    | cons e es =>
      cases al with
      | nil =>
        have := hpre 0 (by omega)
        simp at this
      | cons a as_ =>
        have hea : e = a := by
          have := hpre 0 (by omega)
          simpa using this
        simp only [lineDiff, if_pos hea, List.getElem?_cons_succ]
        have h1 : ∀ j, j < i → es[j]? = as_[j]? := by
          intro j hj
          have := hpre (j + 1) (by omega)
          simpa using this
        have h2 : es[i]? ≠ as_[i]? := by
          simpa using hne
        have hrow : row + (i + 1) = (row + 1) + i := by omega
        rw [hrow]
        exact ih es as_ (row + 1) h1 h2

/-- `lineDiff` returns `none` exactly when the line sequences agree at every
index. -/
theorem lineDiff_none_iff :
    ∀ (el al : List (List Char)) (row : Nat),
      lineDiff el al row = none ↔ ∀ i : Nat, el[i]? = al[i]? := by
  intro el
  induction el with
  | nil =>
    intro al row
    cases al with
    | nil => simp [lineDiff]
    | cons a as_ =>
      simp only [lineDiff]
      constructor
      · intro h; cases h
      · intro h; have := h 0; simp at this
  | cons e es ih =>
    intro al row
    cases al with
    | nil =>
      simp only [lineDiff]
      constructor
      · intro h; cases h
      · intro h; have := h 0; simp at this
    | cons a as_ =>
      by_cases hea : e = a
      · simp only [lineDiff, if_pos hea]
        rw [ih as_ (row + 1)]
        constructor
        · intro h i
          cases i with
          | zero => simp [hea]
          | succ j => simpa using h j
        · intro h j
          have := h (j + 1)
          simpa using this
      · simp only [lineDiff, if_neg hea]
        constructor
        · intro h; cases h
        · intro h
          have := h 0
          simp at this
          exact absurd this hea

/-! ### ChunkedLines (`src/chunk/line.rs`)

`ChunkedLines::next` walks the character iterator, accumulating the slice
from the chunk start; a chunk is emitted when its byte length reaches
`max_chunk_size` or a newline was consumed, and a final non-empty partial
slice is emitted at end of input.  The whole iteration is modelled as the
list of `(text, row)` chunks. -/

def chunkGo (maxChunkSize : Nat) : List Char → List Char → Nat → Nat → List (List Char × Nat)
  | [], acc, _, row => if acc = [] then [] else [(acc, row)]
  | c :: cs, acc, accLen, row =>
    let acc' := acc ++ [c]
    let len := accLen + charSize c
    if maxChunkSize ≤ len ∨ c = '\n' then
      (acc', row) :: chunkGo maxChunkSize cs [] 0 (if c = '\n' then row + 1 else row)
    else
      chunkGo maxChunkSize cs acc' len row

/-- The full chunk sequence produced by `ChunkedLines::new(text,
max_chunk_size)`. -/
def chunkedLines (text : List Char) (maxChunkSize : Nat) : List (List Char × Nat) :=
  chunkGo maxChunkSize text [] 0 1

theorem chunkGo_join (maxChunkSize : Nat) :
    ∀ (cs acc : List Char) (accLen row : Nat),
      ((chunkGo maxChunkSize cs acc accLen row).map Prod.fst).flatten = acc ++ cs := by
  intro cs
  induction cs with
  | nil =>
    intro acc accLen row
    by_cases h : acc = []
    · simp [chunkGo, h]
    · simp [chunkGo, h]
  | cons c cs ih =>
    intro acc accLen row
    simp only [chunkGo]
    by_cases h : maxChunkSize ≤ accLen + charSize c ∨ c = '\n'
    · rw [if_pos h]
      simp only [List.map_cons, List.flatten_cons, ih]
      simp
    · rw [if_neg h]
      rw [ih]
      simp

/-- Concatenating every chunk text reconstructs the input. -/
theorem chunkedLines_join (text : List Char) (maxChunkSize : Nat) :
    ((chunkedLines text maxChunkSize).map Prod.fst).flatten = text := by
  simpa using chunkGo_join maxChunkSize text [] 0 1

theorem countNl_append (x y : List Char) : countNl (x ++ y) = countNl x + countNl y := by
  simp [countNl, List.countP_append]

/-- The row recorded on the `i`-th chunk is the starting row plus the number
of newline characters contained in the chunks before it. -/
theorem chunkGo_row (maxChunkSize : Nat) :
    ∀ (cs acc : List Char) (accLen row : Nat), countNl acc = 0 →
      ∀ (i : Nat) (ch : List Char × Nat),
        (chunkGo maxChunkSize cs acc accLen row)[i]? = some ch →
        ch.2 = row + countNl ((((chunkGo maxChunkSize cs acc accLen row).take i).map Prod.fst).flatten) := by
  intro cs
  induction cs with
  | nil =>
    intro acc accLen row hacc i ch h
    by_cases ha : acc = []
    · simp [chunkGo, ha] at h
    · simp only [chunkGo, if_neg ha] at h ⊢
      cases i with
      | zero =>
        simp at h
        simp [← h, countNl]
      | succ j => simp at h
  | cons c cs ih =>
    intro acc accLen row hacc i ch h
    simp only [chunkGo] at h ⊢
    by_cases hf : maxChunkSize ≤ accLen + charSize c ∨ c = '\n'
    · rw [if_pos hf] at h ⊢
      cases i with
      | zero =>
        simp at h
        simp [← h, countNl]
      | succ j =>
        simp only [List.getElem?_cons_succ] at h
        have hrec := ih [] 0 (if c = '\n' then row + 1 else row) (by simp [countNl]) j ch h
        rw [hrec]
        simp only [List.take_succ_cons, List.map_cons, List.flatten_cons, countNl_append]
        have hc1 : countNl [c] = if c = '\n' then 1 else 0 := by
          by_cases hcn : c = '\n' <;> simp [countNl, hcn]
        rw [hacc, hc1]
        by_cases hcn : c = '\n'
        · simp only [if_pos hcn]
          omega
        · simp only [if_neg hcn]
          omega
    · rw [if_neg hf] at h ⊢
      have hacc' : countNl (acc ++ [c]) = 0 := by
        have hcn : ¬ c = '\n' := fun hc => hf (Or.inr hc)
        simp [countNl, List.countP_append, List.countP_cons, hcn] at *
        simpa [countNl] using hacc
      exact ih (acc ++ [c]) (accLen + charSize c) row hacc' i ch h

/-- Row bookkeeping of `chunkedLines`: the `i`-th chunk's row is 1 plus the
number of newlines in the text before that chunk starts. -/
theorem chunkedLines_row (text : List Char) (maxChunkSize : Nat) (i : Nat)
    (ch : List Char × Nat) (h : (chunkedLines text maxChunkSize)[i]? = some ch) :
    ch.2 = 1 + countNl ((((chunkedLines text maxChunkSize).take i).map Prod.fst).flatten) := by
  simpa using chunkGo_row maxChunkSize text [] 0 1 (by simp [countNl]) i ch h

/-! ### Chunked diff (`src/verify/diff.rs`) -/

/-- The indexed loop of `eval_diff_as_str`, matching `(actual.get(i),
expected.get(i))` in the source's order. -/
def cdLoopF (el al : List (List Char × Nat)) : Nat → Nat → Option DiffC
  | _, 0 => none
  | i, fuel + 1 =>
    match al[i]?, el[i]? with
    | some a, some e =>
      if a.1 = e.1 then cdLoopF el al (i + 1) fuel
      else some (.Line (some e.1) (some a.1) a.2)
    | some a, none => some (.Line none (some a.1) a.2)
    | none, some e => some (.Line (some e.1) none e.2)
    | none, none => none

/-- `eval_diff_as_str`: both sides are chunked with a maximum chunk size of
64 and compared index by index up to `max(actual.len(), expected.len())`
(the lengths of the two chunk vectors). -/
def evalDiffAsStr (expected actual : List Char) : Option DiffC :=
  let expectedChunks := chunkedLines expected 64
  let actualChunks := chunkedLines actual 64
  cdLoopF expectedChunks actualChunks 0 (max actualChunks.length expectedChunks.length)

/-- `eval_diff_as_bytes` in `src/verify/diff.rs` is a stub returning
`None`. -/
def evalDiffAsBytes (_expected _actual : List Nat) : Option DiffC :=
  none

/-- `eval_diff`: strict decode of `expected`, lossy decode of `actual`; the
byte fallback is taken exactly when the expected side fails strict
decoding. -/
def evalDiff (expected actual : List Nat) : Option DiffC :=
  match utf8Decode? expected with
  | some e => evalDiffAsStr e (utf8DecodeLossy actual)
  | none => evalDiffAsBytes expected actual

/-- Reference recursion for pairwise chunk comparison. -/
def chunkDiff : List (List Char × Nat) → List (List Char × Nat) → Option DiffC
  | [], [] => none
  | e :: _, [] => some (.Line (some e.1) none e.2)
  | [], a :: _ => some (.Line none (some a.1) a.2)
  | e :: es, a :: as_ =>
    if a.1 = e.1 then chunkDiff es as_
    else some (.Line (some e.1) (some a.1) a.2)

theorem cdLoopF_eq_chunkDiff :
    ∀ (fuel : Nat) (el al : List (List Char × Nat)) (i : Nat),
      el.length ≤ i + fuel → al.length ≤ i + fuel →
      cdLoopF el al i fuel = chunkDiff (el.drop i) (al.drop i) := by
  intro fuel
  induction fuel with
  | zero =>
    intro el al i he ha
    rw [List.drop_eq_nil_of_le (by omega), List.drop_eq_nil_of_le (by omega)]
    rfl
  | succ fuel ih =>
    intro el al i he ha
    rw [drop_get el i, drop_get al i]
    cases hge : el[i]? with
    | none =>
      cases hga : al[i]? with
      | none => simp [cdLoopF, hge, hga, chunkDiff]
      | some a => simp [cdLoopF, hge, hga, chunkDiff]
    | some e =>
      cases hga : al[i]? with
      | none => simp [cdLoopF, hge, hga, chunkDiff]
      | some a =>
        simp only [cdLoopF, hge, hga, chunkDiff]
        by_cases hea : a.1 = e.1
        · rw [if_pos hea, if_pos hea]
          exact ih el al (i + 1) (by omega) (by omega)
        · rw [if_neg hea, if_neg hea]

theorem evalDiffAsStr_eq_chunkDiff (e a : List Char) :
    evalDiffAsStr e a = chunkDiff (chunkedLines e 64) (chunkedLines a 64) := by
  have := cdLoopF_eq_chunkDiff
    (max (chunkedLines a 64).length (chunkedLines e 64).length)
    (chunkedLines e 64) (chunkedLines a 64) 0 (by omega) (by omega)
  simpa [evalDiffAsStr] using this

/-- When `chunkDiff` reports a `Line` diff, there is a first index `i` at
which the chunk texts differ (or one side is exhausted); the chunks before it
agree pairwise, and the reported row is the row recorded on the present
chunk at `i` (the actual side's chunk when it exists). -/
theorem chunkDiff_some :
    ∀ (el al : List (List Char × Nat)) (e a : Option (List Char)) (r : Nat),
      chunkDiff el al = some (.Line e a r) →
      ∃ i, (el.take i).map Prod.fst = (al.take i).map Prod.fst ∧
        i ≤ el.length ∧ i ≤ al.length ∧
        (el[i]?).map Prod.fst ≠ (al[i]?).map Prod.fst ∧
        (∀ ch, al[i]? = some ch → r = ch.2) ∧
        (al[i]? = none → ∀ ch, el[i]? = some ch → r = ch.2) := by
  intro el
  induction el with
  | nil =>
    intro al e a r h
    cases al with
    | nil => simp [chunkDiff] at h
    | cons ac as_ =>
      refine ⟨0, by simp, by simp, by simp, by simp, ?_, by simp⟩
      intro ch hch
      simp at hch
      simp only [chunkDiff] at h
      cases h
      simp [← hch]
  | cons ec es ih =>
    intro al e a r h
    cases al with
    | nil =>
      refine ⟨0, by simp, by simp, by simp, by simp, by simp, ?_⟩
      intro _ ch hch
      simp at hch
      simp only [chunkDiff] at h
      cases h
      simp [← hch]
    | cons ac as_ =>
      simp only [chunkDiff] at h
      by_cases hmatch : ac.1 = ec.1
      · rw [if_pos hmatch] at h
        obtain ⟨i, h1, h2, h3, h4, h5, h6⟩ := ih as_ e a r h
        refine ⟨i + 1, ?_, by simp; omega, by simp; omega, by simpa using h4, ?_, ?_⟩
        · simp [h1, hmatch]
        · intro ch hch
          exact h5 ch (by simpa using hch)
        · intro hnone ch hch
          exact h6 (by simpa using hnone) ch (by simpa using hch)
      · rw [if_neg hmatch] at h
        cases h
        refine ⟨0, by simp, by simp, by simp, ?_, ?_, by simp⟩
        · simpa using fun hc => hmatch hc.symm
        · intro ch hch
          simp at hch
          simp [← hch]

/-! ### ChunkedPatterns (`src/chunk/pattern.rs`)

The chunked pattern scanner: characters outside `<<<...>>>` markers are
pushed through `escape_regex_metacharacter`, marker bodies are spliced in
verbatim, and a chunk is flushed when the accumulated byte length reaches
`max_chunk_size`, a newline was consumed, or the input is exhausted.  An
unterminated marker is a fatal error.  The iterator is modelled as the list
of items it yields; the first parameter of `cpGo` is structural fuel, set to
more than the input length (every loop iteration consumes at least one
character). -/

inductive ChunkPattern where
  | SimpleLine (value : List Char) (row : Nat)
  | PatternLine (value : List Char) (row : Nat)
  deriving DecidableEq, Repr

/-- `escape_regex_metacharacter`. -/
def escapeChar (c : Char) : List Char :=
  if c ∈ ['\\', '/', '.', '{', '}', '(', ')', '[', ']', '^', '$', '*', '+', '?', '|']
  then ['\\', c] else [c]

/-- `read_pattern`'s scan loop after the `<<<` has been skipped: consume
characters until the three-character close marker `>>>`, returning the body
and the remaining input; `none` when the input ends first. -/
def readSpan : List Char → Option (List Char × List Char)
  | [] => none
  | c :: cs =>
    if c = '>' ∧ cs.take 2 = ['>', '>'] then some ([], cs.drop 2)
    else (readSpan cs).map (fun p => (c :: p.1, p.2))

/-- The error message produced for an unterminated or invalid pattern. -/
def invalidMsg : List Char := sl ("pattern is invalid")

def cpGo (maxChunkSize : Nat) : Nat → List Char → Nat → List Char → Bool → List (Except (List Char) ChunkPattern)
  | 0, _, _, _, _ => []
  | _ + 1, [], _, _, _ => []
  | fuel + 1, c :: cs, row, line, hasPat =>
    if c = '<' ∧ cs.take 2 = ['<', '<'] then
      match readSpan (cs.drop 2) with
      | none => [Except.error invalidMsg]
      | some (pat, rest) =>
        let line' := line ++ pat
        let nl := c = '\n'
        let eof := rest = []
        if maxChunkSize ≤ utf8Len line' ∨ nl ∨ eof then
          Except.ok (ChunkPattern.PatternLine line' row) ::
            (if eof then [] else cpGo maxChunkSize fuel rest (if nl then row + 1 else row) [] false)
        else cpGo maxChunkSize fuel rest row line' true
    else
      let line' := line ++ escapeChar c
      let nl := c = '\n'
      let eof := cs = []
      if maxChunkSize ≤ utf8Len line' ∨ nl ∨ eof then
        Except.ok ((if hasPat then ChunkPattern.PatternLine else ChunkPattern.SimpleLine) line' row) ::
          (if eof then [] else cpGo maxChunkSize fuel cs (if nl then row + 1 else row) [] false)
      else cpGo maxChunkSize fuel cs row line' hasPat

/-- The full item sequence yielded by `ChunkedPatterns::new(text,
max_chunk_size)`. -/
def cpItems (text : List Char) (maxChunkSize : Nat) : List (Except (List Char) ChunkPattern) :=
  cpGo maxChunkSize (text.length + 1) text 1 [] false

/-- Fuse behaviour: an error item, when present, is the last item yielded;
everything before it is a successfully scanned chunk. -/
theorem cpGo_error_last (maxChunkSize : Nat) :
    ∀ (fuel : Nat) (cs : List Char) (row : Nat) (line : List Char) (hasPat : Bool) (e : List Char),
      Except.error e ∈ cpGo maxChunkSize fuel cs row line hasPat →
      ∃ pre, cpGo maxChunkSize fuel cs row line hasPat = pre ++ [Except.error e] ∧
        ∀ x ∈ pre, ∃ ch, x = Except.ok ch := by
  intro fuel
  induction fuel with
  | zero => intro cs row line hasPat e h; simp [cpGo] at h
  | succ fuel ih =>
    intro cs row line hasPat e h
    cases cs with
    | nil => simp [cpGo] at h
    | cons c cs =>
      simp only [cpGo] at h ⊢
      by_cases hpat : c = '<' ∧ cs.take 2 = ['<', '<']
      · rw [if_pos hpat] at h ⊢
        cases hrs : readSpan (cs.drop 2) with
        | none =>
          rw [hrs] at h
          simp at h
          exact ⟨[], by simp [h], by simp⟩
        | some pr =>
          obtain ⟨pat, rest⟩ := pr
          rw [hrs] at h
          dsimp only at h ⊢
          by_cases hfl : maxChunkSize ≤ utf8Len (line ++ pat) ∨ c = '\n' ∨ rest = []
          · rw [if_pos hfl] at h ⊢
            by_cases heof : rest = []
            · simp only [if_pos heof] at h ⊢
              simp at h
            · simp only [if_neg heof] at h ⊢
              simp only [List.mem_cons] at h
              rcases h with h | h
              · cases h
              · obtain ⟨pre, hpre, hall⟩ := ih rest (if c = '\n' then row + 1 else row) [] false e h
                refine ⟨Except.ok (ChunkPattern.PatternLine (line ++ pat) row) :: pre, ?_, ?_⟩
                · simp [hpre]
                · intro x hx
                  simp only [List.mem_cons] at hx
                  rcases hx with rfl | hx
                  · exact ⟨_, rfl⟩
                  · exact hall x hx
          · rw [if_neg hfl] at h ⊢
            exact ih rest row (line ++ pat) true e h
      · rw [if_neg hpat] at h ⊢
        by_cases hfl : maxChunkSize ≤ utf8Len (line ++ escapeChar c) ∨ c = '\n' ∨ cs = []
        · rw [if_pos hfl] at h ⊢
          by_cases heof : cs = []
          · simp only [if_pos heof] at h ⊢
            simp at h
          · simp only [if_neg heof] at h ⊢
            simp only [List.mem_cons] at h
            rcases h with h | h
            · cases h
            · obtain ⟨pre, hpre, hall⟩ := ih cs (if c = '\n' then row + 1 else row) [] false e h
              refine ⟨Except.ok ((if hasPat then ChunkPattern.PatternLine else ChunkPattern.SimpleLine) (line ++ escapeChar c) row) :: pre, ?_, ?_⟩
              · simp [hpre]
              · intro x hx
                simp only [List.mem_cons] at hx
                rcases hx with rfl | hx
                · exact ⟨_, rfl⟩
                · exact hall x hx
        · rw [if_neg hfl] at h ⊢
          exact ih cs row (line ++ escapeChar c) hasPat e h

theorem cpItems_error_last (text : List Char) (maxChunkSize : Nat) (e : List Char)
    (h : Except.error e ∈ cpItems text maxChunkSize) :
    ∃ pre, cpItems text maxChunkSize = pre ++ [Except.error e] ∧
      ∀ x ∈ pre, ∃ ch, x = Except.ok ch :=
  cpGo_error_last maxChunkSize (text.length + 1) text 1 [] false e h

/-! ### PatternLines (pure pattern reader)

Modelled from the spec: `crate::chunk::{PatternLine, PatternLines}`, the
canonical scanner consumed by `src/verify/pattern.rs`, is not present under
`src/` (only its caller is).  Per the spec (§4.2): characters outside a
marker are accumulated verbatim into the current logical line's buffer; on
`<<<` the span body up to `>>>` is appended unescaped; end of input inside a
span is a fatal `InvalidPattern` error, after which no further items are
yielded; a line flushes at an accumulated newline or at end of input; a line
that touched a span is compiled as a regex (compilation failure is
`InvalidPattern`), otherwise it is a literal.  Regex compilation is
abstracted by the `compileOk` predicate; the `Pattern` variant keeps the
pattern source text (what `Regex::to_string` returns). -/

inductive PatternLine where
  | NoPattern (value : List Char)
  | Pattern (value : List Char)
  deriving DecidableEq, Repr

/-- Flush one accumulated logical line, compiling it when it contained a
span. -/
def flushPL (compileOk : List Char → Bool) (buf : List Char) : Bool → Except (List Char) PatternLine
  | true =>
    if compileOk buf then Except.ok (PatternLine.Pattern buf)
    else Except.error invalidMsg
  | false => Except.ok (PatternLine.NoPattern buf)

def plGo (compileOk : List Char → Bool) : Nat → List Char → List Char → Bool → List (Except (List Char) PatternLine)
  | 0, _, _, _ => []
  | _ + 1, [], buf, hasPat =>
    match hasPat with
    | true => [flushPL compileOk buf true]
    | false => if buf = [] then [] else [flushPL compileOk buf false]
  | fuel + 1, c :: cs, buf, hasPat =>
    if c = '<' ∧ cs.take 2 = ['<', '<'] then
      match readSpan (cs.drop 2) with
      | none => [Except.error invalidMsg]
      | some (pat, rest) => plGo compileOk fuel rest (buf ++ pat) true
    else
      if c = '\n' then
        match flushPL compileOk (buf ++ [c]) hasPat with
        | Except.error e => [Except.error e]
        | Except.ok l => Except.ok l :: plGo compileOk fuel cs [] false
      else plGo compileOk fuel cs (buf ++ [c]) hasPat

/-- The item sequence of `PatternLines::new(text)` (spec model). -/
def patternLines (compileOk : List Char → Bool) (text : List Char) :
    List (Except (List Char) PatternLine) :=
  plGo compileOk (text.length + 1) text [] false

/-! Reference decomposition of a fixture into logical lines, written from the
spec's glossary and marker syntax: each line carries its raw source text
(markers included, trailing newline included) and whether it contains at
least one marker-delimited span; newlines inside a span do not close a line;
an unterminated marker means the fixture has no valid decomposition. -/

def srcGo : Nat → List Char → List Char → Bool → Option (List (List Char × Bool))
  | 0, _, _, _ => some []
  | _ + 1, [], buf, hasSpan =>
    if buf = [] then some [] else some [(buf, hasSpan)]
  | fuel + 1, c :: cs, buf, hasSpan =>
    if c = '<' ∧ cs.take 2 = ['<', '<'] then
      match readSpan (cs.drop 2) with
      | none => none
      | some (pat, rest) =>
        srcGo fuel rest (buf ++ ['<', '<', '<'] ++ pat ++ ['>', '>', '>']) true
    else
      if c = '\n' then
        (srcGo fuel cs [] false).map (fun l => (buf ++ [c], hasSpan) :: l)
      else srcGo fuel cs (buf ++ [c]) hasSpan

/-- Logical lines of a fixture with their span flags. -/
def srcLines (text : List Char) : Option (List (List Char × Bool)) :=
  srcGo (text.length + 1) text [] false

/-- Check that an item is a successfully scanned line. -/
def isOkItem (x : Except (List Char) PatternLine) : Bool :=
  match x with
  | Except.ok _ => true
  | Except.error _ => false

/-- `readSpan` splits its input as body ++ close marker ++ rest. -/
theorem readSpan_split :
    ∀ (l pat rest : List Char), readSpan l = some (pat, rest) →
      l = pat ++ ['>', '>', '>'] ++ rest := by
  intro l
  induction l with
  | nil => intro pat rest h; simp [readSpan] at h
  | cons c cs ih =>
    intro pat rest h
    simp only [readSpan] at h
    by_cases hend : c = '>' ∧ cs.take 2 = ['>', '>']
    · rw [if_pos hend] at h
      simp at h
      obtain ⟨rfl, rfl⟩ := h
      obtain ⟨rfl, htake⟩ := hend
      simp only [List.nil_append]
      have : cs = cs.take 2 ++ cs.drop 2 := by simp
      rw [htake] at this
      conv =>
        lhs
        rw [this]
      simp
    · rw [if_neg hend] at h
      cases hr : readSpan cs with
      | none => rw [hr] at h; simp at h
      | some pr =>
        rw [hr] at h
        obtain ⟨p1, p2⟩ := pr
        simp at h
        obtain ⟨rfl, rfl⟩ := h
        have := ih p1 p2 hr
        simp [this]

/-- Joint shape of the scanner and the reference decomposition: with the
same fuel and remaining input, when every scanner item is `ok`, the
reference decomposition exists, and item-by-item a `false` span flag yields
the literal line verbatim while a `true` flag yields a compiled pattern. -/
theorem plGo_srcGo (compileOk : List Char → Bool) :
    ∀ (fuel : Nat) (chars bufP bufS : List Char) (hasPat : Bool),
      (hasPat = false → bufP = bufS) →
      (hasPat = true → bufS ≠ []) →
      (∀ x ∈ plGo compileOk fuel chars bufP hasPat, isOkItem x = true) →
      ∃ l, srcGo fuel chars bufS hasPat = some l ∧
        List.Forall₂
          (fun (item : Except (List Char) PatternLine) (src : List Char × Bool) =>
            (src.2 = false → item = Except.ok (PatternLine.NoPattern src.1)) ∧
            (src.2 = true → ∃ v, item = Except.ok (PatternLine.Pattern v)))
          (plGo compileOk fuel chars bufP hasPat) l := by
  intro fuel
  induction fuel with
  | zero =>
    intro chars bufP bufS hasPat hbuf hbs hok
    exact ⟨[], rfl, by simp [plGo]⟩
  | succ fuel ih =>
    intro chars bufP bufS hasPat hbuf hbs hok
    cases chars with
    | nil =>
      cases hasPat with
      | false =>
        have hpb : bufP = bufS := hbuf rfl
        subst hpb
        by_cases hb : bufP = []
        · refine ⟨[], by simp [srcGo, hb], ?_⟩
          simp [plGo, hb]
        · refine ⟨[(bufP, false)], by simp [srcGo, hb], ?_⟩
          simp only [plGo, if_neg hb]
          refine List.Forall₂.cons ?_ List.Forall₂.nil
          constructor
          · intro _
            simp [flushPL]
          · intro h; simp at h
      | true =>
        have hbs0 : ¬ bufS = [] := hbs rfl
        simp only [plGo, flushPL] at hok ⊢
        by_cases hco : compileOk bufP
        · simp only [if_pos hco] at hok ⊢
          refine ⟨[(bufS, true)], by simp [srcGo, hbs0], ?_⟩
          refine List.Forall₂.cons ?_ List.Forall₂.nil
          constructor
          · intro h; simp at h
          · intro _; exact ⟨bufP, rfl⟩
        · simp only [if_neg hco] at hok
          have := hok (Except.error invalidMsg) (by simp)
          simp [isOkItem] at this
    | cons c cs =>
      simp only [plGo, srcGo] at hok ⊢
      by_cases hpat : c = '<' ∧ cs.take 2 = ['<', '<']
      · simp only [if_pos hpat] at hok ⊢
        cases hrs : readSpan (cs.drop 2) with
        | none =>
          simp only [hrs] at hok
          have := hok (Except.error invalidMsg) (by simp)
          simp [isOkItem] at this
        | some pr =>
          obtain ⟨pat, rest⟩ := pr
          simp only [hrs] at hok ⊢
          exact ih rest (bufP ++ pat) (bufS ++ ['<', '<', '<'] ++ pat ++ ['>', '>', '>']) true
            (by intro h; cases h) (by intro _; simp) hok
      · simp only [if_neg hpat] at hok ⊢
        by_cases hnl : c = '\n'
        · simp only [if_pos hnl] at hok ⊢
          cases hfl : flushPL compileOk (bufP ++ [c]) hasPat with
          | error e =>
            simp only [hfl] at hok
            have := hok (Except.error e) (by simp)
            simp [isOkItem] at this
          | ok l =>
            simp only [hfl] at hok ⊢
            have hok' : ∀ x ∈ plGo compileOk fuel cs [] false, isOkItem x = true := by
              intro x hx
              exact hok x (List.mem_cons_of_mem _ hx)
            obtain ⟨l', hl', hfa⟩ := ih cs [] [] false (fun _ => rfl) (by intro h; simp at h) hok'
            rw [hl']
            refine ⟨(bufS ++ [c], hasPat) :: l', by simp, ?_⟩
            refine List.Forall₂.cons ?_ hfa
            constructor
            · intro hh
              simp only at hh
              subst hh
              simp only [flushPL] at hfl
              have hbb : bufP = bufS := hbuf rfl
              cases hfl
              simp [hbb]
            · intro hh
              simp only at hh
              subst hh
              simp only [flushPL] at hfl
              by_cases hco : compileOk (bufP ++ [c])
              · rw [if_pos hco] at hfl
                cases hfl
                exact ⟨bufP ++ [c], rfl⟩
              · rw [if_neg hco] at hfl
                cases hfl
        · simp only [if_neg hnl] at hok ⊢
          exact ih cs (bufP ++ [c]) (bufS ++ [c]) hasPat
            (fun h => by rw [hbuf h]) (by intro _; simp) hok

/-- The reference decomposition is a genuine decomposition: its lines
concatenate back to the source text. -/
theorem srcGo_join :
    ∀ (fuel : Nat) (chars buf : List Char) (hasSpan : Bool) (l : List (List Char × Bool)),
      chars.length < fuel →
      srcGo fuel chars buf hasSpan = some l →
      (l.map Prod.fst).flatten = buf ++ chars := by
  intro fuel
  induction fuel with
  | zero => intro chars buf hasSpan l h _; omega
  | succ fuel ih =>
    intro chars buf hasSpan l hlen h
    cases chars with
    | nil =>
      by_cases hb : buf = []
      · simp only [srcGo, if_pos hb] at h
        cases h
        simp [hb]
      · simp only [srcGo, if_neg hb] at h
        cases h
        simp
    | cons c cs =>
      simp only [srcGo] at h
      by_cases hpat : c = '<' ∧ cs.take 2 = ['<', '<']
      · simp only [if_pos hpat] at h
        cases hrs : readSpan (cs.drop 2) with
        | none => simp only [hrs] at h; cases h
        | some pr =>
          obtain ⟨pat, rest⟩ := pr
          simp only [hrs] at h
          have hsplit := readSpan_split (cs.drop 2) pat rest hrs
          have hlenr : rest.length < fuel := by
            have h1 : (cs.drop 2).length = pat.length + 3 + rest.length := by
              rw [hsplit]
              simp only [List.length_append, List.length_cons, List.length_nil]
            have h2 : (cs.drop 2).length ≤ cs.length := by simp
            simp only [List.length_cons] at hlen
            omega
          have := ih rest (buf ++ ['<', '<', '<'] ++ pat ++ ['>', '>', '>']) true l hlenr h
          rw [this]
          obtain ⟨rfl, htake⟩ := hpat
          have hcs : cs = cs.take 2 ++ cs.drop 2 := by simp
          rw [htake] at hcs
          conv =>
            rhs
            rw [hcs, hsplit]
          simp
      · simp only [if_neg hpat] at h
        by_cases hnl : c = '\n'
        · simp only [if_pos hnl] at h
          cases hrec : srcGo fuel cs [] false with
          | none => rw [hrec] at h; simp at h
          | some l' =>
            rw [hrec] at h
            simp only [Option.map] at h
            cases h
            have := ih cs [] false l' (by simp at hlen; omega) hrec
            simp only [List.map_cons, List.flatten_cons, this]
            simp
        · simp only [if_neg hnl] at h
          have := ih cs (buf ++ [c]) hasSpan l (by simp at hlen; omega) h
          rw [this]
          simp

theorem srcLines_join (text : List Char) (l : List (List Char × Bool))
    (h : srcLines text = some l) : (l.map Prod.fst).flatten = text := by
  simpa using srcGo_join (text.length + 1) text [] false l (by omega) h

/-! ### Pattern diff (`src/verify/pattern.rs`)

`eval_pat_diff` consumes the scanned pattern lines in lock-step with the
actual lines.  Regex matching (`Regex::find`) is abstracted by a `find`
function returning the start offset of the leftmost match, `none` when there
is no match; `Regex::to_string` returns the pattern source, which the
`Pattern` variant carries directly. -/

/-- The scanner error propagated by `eval_pat_diff`:
`InvalidPattern{reason, row}`. -/
structure InvalidPattern where
  reason : List Char
  row : Nat
  deriving DecidableEq, Repr

/-- One lock-step comparison step succeeds (the walk continues) exactly when
a literal line is equal byte-for-byte, or a pattern line has a match starting
at offset 0. -/
def acceptsPL (find : List Char → List Char → Option Nat) :
    PatternLine → List Char → Bool
  | PatternLine.NoPattern s, a => decide (s = a)
  | PatternLine.Pattern p, a => decide (find p a = some 0)

/-- The `for expected_line in expected_lines` loop of `eval_pat_diff`,
including the trailing check for an unconsumed actual line. -/
def ppLoop (find : List Char → List Char → Option Nat) :
    List (Except (List Char) PatternLine) → List (List Char) → Nat →
    Except InvalidPattern (Option Diff)
  | [], als, row =>
    match als with
    | a :: _ => Except.ok (some (Diff.Line none (some a) row))
    | [] => Except.ok none
  | Except.error e :: _, _, row => Except.error ⟨e, row⟩
  | Except.ok el :: rest, als, row =>
    match als with
    | [] =>
      match el with
      | PatternLine.NoPattern s => Except.ok (some (Diff.Line (some s) none row))
      | PatternLine.Pattern p => Except.ok (some (Diff.PatternLine (some p) none row))
    | a :: as_ =>
      match el with
      | PatternLine.NoPattern s =>
        if s = a then ppLoop find rest as_ (row + 1)
        else Except.ok (some (Diff.Line (some s) (some a) row))
      | PatternLine.Pattern p =>
        match find p a with
        | some k =>
          if k = 0 then ppLoop find rest as_ (row + 1)
          else Except.ok (some (Diff.PatternLine (some p) (some a) row))
        | none => Except.ok (some (Diff.PatternLine (some p) (some a) row))

/-- `eval_pat_diff`: lossy-decode the actual bytes, split them inclusively,
scan the expected pattern text and walk both in lock-step starting at
row 1. -/
def evalPatDiff (compileOk : List Char → Bool)
    (find : List Char → List Char → Option Nat)
    (expected : List Char) (actual : List Nat) : Except InvalidPattern (Option Diff) :=
  ppLoop find (patternLines compileOk expected)
    (splitInclusive (utf8DecodeLossy actual)) 1

/-- Consuming a prefix of pairwise-accepted lines advances the walk and the
row count. -/
theorem ppLoop_consume (find : List Char → List Char → Option Nat) :
    ∀ (pre : List PatternLine) (als₁ : List (List Char))
      (rest : List (Except (List Char) PatternLine)) (als₂ : List (List Char)) (row : Nat),
      List.Forall₂ (fun el al => acceptsPL find el al = true) pre als₁ →
      ppLoop find (pre.map Except.ok ++ rest) (als₁ ++ als₂) row =
        ppLoop find rest als₂ (row + pre.length) := by
  intro pre als₁ rest als₂ row hfa
  induction hfa generalizing row with
  | nil => simp
  | cons hab hfa ih =>
    rename_i el al pre' als₁'
    simp only [List.map_cons, List.cons_append, List.length_cons]
    cases el with
    | NoPattern s =>
      simp only [acceptsPL, decide_eq_true_eq] at hab
      simp only [ppLoop, if_pos hab]
      rw [ih (row + 1)]
      have heq : row + 1 + pre'.length = row + (pre'.length + 1) := by omega
      rw [heq]
    | Pattern p =>
      simp only [acceptsPL, decide_eq_true_eq] at hab
      simp only [ppLoop, hab, if_pos rfl]
      rw [ih (row + 1)]
      have heq : row + 1 + pre'.length = row + (pre'.length + 1) := by omega
      rw [heq]
      simp

/-! ### Shared helpers for the claim theorems -/

theorem forall2_get {R : α → β → Prop} :
    ∀ {l1 : List α} {l2 : List β}, List.Forall₂ R l1 l2 →
      ∀ (i : Nat) (x : α) (y : β), l1[i]? = some x → l2[i]? = some y → R x y := by
  intro l1 l2 h
  induction h with
  | nil => intro i x y hx _; simp at hx
  | cons hr hfa ih =>
    intro i x y hx hy
    cases i with
    | zero =>
      simp only [List.getElem?_cons_zero, Option.some.injEq] at hx hy
      subst hx
      subst hy
      exact hr
    | succ j =>
      simp only [List.getElem?_cons_succ] at hx hy
      exact ih j x y hx hy

theorem get?_some_lt {l : List α} {i : Nat} {x : α} (h : l[i]? = some x) :
    i < l.length := by
  by_contra hc
  rw [List.getElem?_eq_none (by omega)] at h
  cases h

/-! ### The claims -/

/-- C2: for byte streams that both decode as valid UTF-8, the exact diff
splits each side inclusively after each newline and returns the `Diff::Line`
at the first 0-based index where the line sequences differ (row = index + 1,
exhausted side `none`); it returns `none` exactly when no such index
exists. -/
theorem claim_C2 (eb ab : List Nat) (es as_ : List Char)
    (he : utf8Decode? eb = some es) (ha : utf8Decode? ab = some as_) :
    (evalExactDiff eb ab = .ok none ↔
       ∀ i : Nat, (splitInclusive es)[i]? = (splitInclusive as_)[i]?) ∧
    (∀ i : Nat,
       (∀ j, j < i → (splitInclusive es)[j]? = (splitInclusive as_)[j]?) →
       (splitInclusive es)[i]? ≠ (splitInclusive as_)[i]? →
       evalExactDiff eb ab =
         .ok (some (Diff.Line (splitInclusive es)[i]? (splitInclusive as_)[i]? (i + 1)))) := by
  have hstep : evalExactDiff eb ab = .ok (evalExactDiffAsStr es as_) := by
    unfold evalExactDiff
    rw [he, utf8DecodeLossy_eq_of_strict ha]
  rw [hstep, evalExactDiffAsStr_eq_lineDiff]
  constructor
  · simp only [Except.ok.injEq]
    exact lineDiff_none_iff (splitInclusive es) (splitInclusive as_) 1
  · intro i hpre hne
    rw [lineDiff_first_mismatch i (splitInclusive es) (splitInclusive as_) 1 hpre hne]
    rw [Nat.add_comm 1 i]

theorem claim_C2_witness :
    evalExactDiff [97, 10, 98] [97, 10, 99] =
      .ok (some (Diff.Line (some (sl ("b"))) (some (sl ("c"))) 2)) := by
  have h := (claim_C2 [97, 10, 98] [97, 10, 99] (sl ("a\nb")) (sl ("a\nc"))
      (by decide) (by decide)).2 1
    (by intro j hj
        have hj0 : j = 0 := by omega
        subst hj0
        decide)
    (by decide)
  exact h.trans (by decide)

/-- C3: for every text and every maximum chunk size `n ≥ 1`, concatenating
the chunk texts of `ChunkedLines(t, n)` reconstructs `t` exactly (chunk
boundaries are character boundaries by construction of the embedding over
characters); an empty input yields no chunks, and a non-empty input (in
particular one not ending in a newline) still yields a final chunk. -/
theorem claim_C3 (t : List Char) (n : Nat) (_h : 1 ≤ n) :
    ((chunkedLines t n).map Prod.fst).flatten = t ∧
    (t = [] → chunkedLines t n = []) ∧
    (t ≠ [] → chunkedLines t n ≠ []) := by
  refine ⟨chunkedLines_join t n, ?_, ?_⟩
  · intro ht
    subst ht
    rfl
  · intro ht hc
    have hj := chunkedLines_join t n
    rw [hc] at hj
    simp at hj
    exact ht hj

theorem claim_C3_witness :
    ((chunkedLines (sl ("🍌a")) 1).map Prod.fst).flatten = sl ("🍌a") ∧
    (sl ("🍌a") = [] → chunkedLines (sl ("🍌a")) 1 = []) ∧
    (sl ("🍌a") ≠ [] → chunkedLines (sl ("🍌a")) 1 ≠ []) :=
  claim_C3 (sl ("🍌a")) 1 (by decide)

/-- C4 (corrected): only a failure of the *expected* side's strict UTF-8
decoding makes `eval_exact_diff` fall back to the byte-exact comparator; an
actual side that fails decoding is lossily decoded and compared by the
line-by-line string path. -/
theorem claim_C4 (e a : List Nat) :
    (utf8Decode? e = none → evalExactDiff e a = evalExactDiffAsBytes e a) ∧
    (∀ s, utf8Decode? e = some s →
       evalExactDiff e a = .ok (evalExactDiffAsStr s (utf8DecodeLossy a))) := by
  constructor
  · intro h
    unfold evalExactDiff
    rw [h]
  · intro s h
    unfold evalExactDiff
    rw [h]

/-- C4 counterexample: the actual side `[0xFF]` fails strict UTF-8 decoding,
yet the comparison does not take the byte-exact path — it lossily decodes
the actual side and returns a string-path `Line` diff. -/
theorem claim_C4_counterexample :
    utf8Decode? [255] = none ∧
    evalExactDiff [97] [255] =
      .ok (some (Diff.Line (some (sl ("a"))) (some [replChar]) 1)) ∧
    evalExactDiff [97] [255] ≠ evalExactDiffAsBytes [97] [255] := by
  decide

theorem claim_C4_witness :
    evalExactDiff [255] [0] = evalExactDiffAsBytes [255] [0] :=
  (claim_C4 [255] [0]).1 (by decide)

/-- C9 (corrected): the exact diff is reflexive on every byte sequence that
decodes as valid UTF-8; for non-UTF-8 input the byte comparator is
`todo!()` and panics instead of returning `None`. -/
theorem claim_C9 (x : List Nat) (s : List Char) (h : utf8Decode? x = some s) :
    evalExactDiff x x = .ok none := by
  have hstep : evalExactDiff x x = .ok (evalExactDiffAsStr s s) := by
    unfold evalExactDiff
    rw [h, utf8DecodeLossy_eq_of_strict h]
  rw [hstep, evalExactDiffAsStr_eq_lineDiff, lineDiff_refl]

/-- C9 counterexample: at `x = [0xFF]` (invalid UTF-8) `eval_exact_diff(x, x)`
does not return `None` — it reaches the unimplemented (`todo!()`, panicking)
byte comparator. -/
theorem claim_C9_counterexample :
    evalExactDiff [255] [255] ≠ .ok none ∧
    evalExactDiff [255] [255] = evalExactDiffAsBytes [255] [255] := by
  decide

theorem claim_C9_witness : evalExactDiff [97, 10] [97, 10] = .ok none :=
  claim_C9 [97, 10] (sl ("a\n")) (by decide)

/-- C10: whenever the expected side is not valid UTF-8, the chunked
comparator `eval_diff` returns `None` whatever the actual bytes are, because
its byte-comparison fallback is a stub that always returns `None`. -/
theorem claim_C10 (e a : List Nat) (h : utf8Decode? e = none) :
    evalDiff e a = none := by
  unfold evalDiff
  rw [h]
  rfl

theorem claim_C10_witness : evalDiff [255] [97, 98] = none :=
  claim_C10 [255] [97, 98] (by decide)

/-- C1: whenever the pattern diff reaches a `Pattern` expected line (after a
prefix of pairwise-accepted lines) and an actual line remains, the actual
line is accepted — the walk continues — exactly when the compiled regex has
a match starting at offset 0; no match, or an earliest match starting after
offset 0, yields `Diff::PatternLine{expected: Some, actual: Some, row}`. -/
theorem claim_C1 (compileOk : List Char → Bool)
    (find : List Char → List Char → Option Nat)
    (expected : List Char) (actual : List Nat)
    (pre : List PatternLine) (p : List Char)
    (rest : List (Except (List Char) PatternLine))
    (als₁ als₂ : List (List Char)) (a : List Char)
    (hexp : patternLines compileOk expected =
      pre.map Except.ok ++ Except.ok (PatternLine.Pattern p) :: rest)
    (hact : splitInclusive (utf8DecodeLossy actual) = als₁ ++ a :: als₂)
    (hfa : List.Forall₂ (fun el al => acceptsPL find el al = true) pre als₁) :
    (find p a = some 0 →
      evalPatDiff compileOk find expected actual =
        ppLoop find rest als₂ (pre.length + 2)) ∧
    (find p a ≠ some 0 →
      evalPatDiff compileOk find expected actual =
        .ok (some (Diff.PatternLine (some p) (some a) (pre.length + 1)))) := by
  unfold evalPatDiff
  rw [hexp, hact,
    ppLoop_consume find pre als₁ (Except.ok (PatternLine.Pattern p) :: rest) (a :: als₂) 1 hfa]
  constructor
  · intro hf
    simp only [ppLoop, hf, if_pos rfl]
    have heq : 1 + pre.length + 1 = pre.length + 2 := by omega
    rw [heq]
    simp
  · intro hf
    cases hfind : find p a with
    | none =>
      simp only [ppLoop, hfind]
      have heq : 1 + pre.length = pre.length + 1 := by omega
      rw [heq]
    | some k =>
      have hk : ¬ k = 0 := by
        intro hk0
        subst hk0
        exact hf hfind
      simp only [ppLoop, hfind, if_neg hk]
      have heq : 1 + pre.length = pre.length + 1 := by omega
      rw [heq]

theorem claim_C1_witness :
    evalPatDiff (fun _ => true) (fun _ _ => none) (sl ("<<<x>>>")) [98] =
      .ok (some (Diff.PatternLine (some (sl ("x"))) (some (sl ("b"))) 1)) := by
  have h := (claim_C1 (fun _ => true) (fun _ _ => none) (sl ("<<<x>>>")) [98]
      [] (sl ("x")) [] [] [] (sl ("b"))
      (by decide) (by decide) List.Forall₂.nil).2 (by decide)
  exact h.trans (by decide)

/-- C6: the scanner's unterminated-marker error is a fuse — whenever the
invalid-pattern error is yielded (the only error `ChunkedPatterns` produces,
raised when end of input is reached inside an open marker), it comes after
the successfully scanned items of the preceding input and is the final item,
after which nothing more is yielded; in particular scanning
`"abcd\n<<< not end pattern"` yields the literal line `"abcd\n"`, then the
error, then nothing. -/
theorem claim_C6 :
    (∀ (input : List Char) (maxChunkSize : Nat),
      Except.error invalidMsg ∈ cpItems input maxChunkSize →
      ∃ pre, cpItems input maxChunkSize = pre ++ [Except.error invalidMsg] ∧
        ∀ x ∈ pre, ∃ ch, x = Except.ok ch) ∧
    cpItems (sl ("abcd\n<<< not end pattern")) 32 =
      [Except.ok (ChunkPattern.SimpleLine (sl ("abcd\n")) 1),
       Except.error invalidMsg] :=
  ⟨fun input m h => cpItems_error_last input m invalidMsg h, by decide⟩

theorem claim_C6_witness :
    ∃ pre, cpItems (sl ("abcd\n<<< not end pattern")) 32 =
        pre ++ [Except.error invalidMsg] ∧
      ∀ x ∈ pre, ∃ ch, x = Except.ok ch :=
  claim_C6.1 (sl ("abcd\n<<< not end pattern")) 32 (by decide)

/-- C5: when the pattern scanner (`PatternLines`, the pure pattern reader)
yields no error on a fixture, it produces exactly one item per logical line
of the fixture — `srcLines` is the fixture's logical-line decomposition,
whose lines concatenate back to the fixture — and an item is a `Pattern`
exactly when its logical line contains at least one marker-delimited
span. -/
theorem claim_C5 (compileOk : List Char → Bool) (t : List Char)
    (hok : ∀ x ∈ patternLines compileOk t, isOkItem x = true) :
    ∃ l, srcLines t = some l ∧
      (l.map Prod.fst).flatten = t ∧
      (patternLines compileOk t).length = l.length ∧
      ∀ i : Nat, ∀ item src,
        (patternLines compileOk t)[i]? = some item → l[i]? = some src →
        ((∃ v, item = Except.ok (PatternLine.Pattern v)) ↔ src.2 = true) := by
  obtain ⟨l, hl, hfa⟩ := plGo_srcGo compileOk (t.length + 1) t [] [] false
    (fun _ => rfl) (by intro h; simp at h) hok
  refine ⟨l, hl, srcLines_join t l hl, hfa.length_eq, ?_⟩
  intro i item src hitem hsrc
  have hrel := forall2_get hfa i item src hitem hsrc
  cases hsb : src.2 with
  | false =>
    have := hrel.1 hsb
    subst this
    constructor
    · intro ⟨v, hv⟩
      cases hv
    · intro hh
      cases hh
  | true =>
    obtain ⟨v, hv⟩ := hrel.2 hsb
    exact ⟨fun _ => rfl, fun _ => ⟨v, hv⟩⟩

theorem claim_C5_witness :
    ∃ l, srcLines (sl ("a.b\n<<<x>>>c")) = some l ∧
      (l.map Prod.fst).flatten = sl ("a.b\n<<<x>>>c") ∧
      (patternLines (fun _ => true) (sl ("a.b\n<<<x>>>c"))).length = l.length ∧
      ∀ i : Nat, ∀ item src,
        (patternLines (fun _ => true) (sl ("a.b\n<<<x>>>c")))[i]? = some item →
        l[i]? = some src →
        ((∃ v, item = Except.ok (PatternLine.Pattern v)) ↔ src.2 = true) :=
  claim_C5 (fun _ => true) (sl ("a.b\n<<<x>>>c")) (by decide)

/-- C8: a logical line with no marker-delimited span is emitted by the
pattern scanner as a literal (`NoPattern`) item whose stored string is the
source line's text verbatim, trailing newline included, with no
regex-metacharacter escaping applied. -/
theorem claim_C8 (compileOk : List Char → Bool) (t : List Char)
    (l : List (List Char × Bool)) (i : Nat) (line : List Char)
    (hok : ∀ x ∈ patternLines compileOk t, isOkItem x = true)
    (hsrc : srcLines t = some l)
    (hline : l[i]? = some (line, false)) :
    (patternLines compileOk t)[i]? = some (Except.ok (PatternLine.NoPattern line)) := by
  obtain ⟨l', hl', hfa⟩ := plGo_srcGo compileOk (t.length + 1) t [] [] false
    (fun _ => rfl) (by intro h; simp at h) hok
  have hll : l' = l := by
    have := hl'.symm.trans hsrc
    simpa using this
  rw [hll] at hfa
  have hlen : (patternLines compileOk t).length = l.length := hfa.length_eq
  have hi : i < (patternLines compileOk t).length := by
    have := get?_some_lt hline
    omega
  cases hitem : (patternLines compileOk t)[i]? with
  | none =>
    exfalso
    rw [List.getElem?_eq_getElem (by omega)] at hitem
    cases hitem
  | some item =>
    have hrel := forall2_get hfa i item (line, false) hitem hline
    rw [hrel.1 rfl]

theorem claim_C8_witness :
    (patternLines (fun _ => false) (sl ("a.b*c\nrest")))[0]? =
      some (Except.ok (PatternLine.NoPattern (sl ("a.b*c\n")))) :=
  claim_C8 (fun _ => false) (sl ("a.b*c\nrest"))
    [(sl ("a.b*c\n"), false), (sl ("rest"), false)] 0 (sl ("a.b*c\n"))
    (by decide) (by decide) (by decide)

/-- C7: for valid-UTF-8 streams under the chunked diff with its fixed
64-byte chunk bound, a returned `Line` diff occurs at a first index where
the chunk texts differ or one side is exhausted, and its row is the row
recorded on the present chunk at that index — equal to 1 plus the number of
newlines in the concatenation of the preceding (pairwise equal) chunks,
i.e. the 1-based logical line in which that chunk starts, not the chunk
index. -/
theorem claim_C7 (eb ab : List Nat) (es as_ : List Char)
    (he : utf8Decode? eb = some es) (ha : utf8Decode? ab = some as_)
    (e a : Option (List Char)) (r : Nat)
    (hdiff : evalDiff eb ab = some (DiffC.Line e a r)) :
    ∃ i, ((chunkedLines es 64).take i).map Prod.fst =
          ((chunkedLines as_ 64).take i).map Prod.fst ∧
      i ≤ (chunkedLines es 64).length ∧ i ≤ (chunkedLines as_ 64).length ∧
      ((chunkedLines es 64)[i]?).map Prod.fst ≠ ((chunkedLines as_ 64)[i]?).map Prod.fst ∧
      (∀ ch, (chunkedLines as_ 64)[i]? = some ch → r = ch.2) ∧
      ((chunkedLines as_ 64)[i]? = none →
        ∀ ch, (chunkedLines es 64)[i]? = some ch → r = ch.2) ∧
      r = 1 + countNl ((((chunkedLines as_ 64).take i).map Prod.fst).flatten) := by
  have hstep : evalDiff eb ab = evalDiffAsStr es as_ := by
    unfold evalDiff
    rw [he, utf8DecodeLossy_eq_of_strict ha]
  rw [hstep, evalDiffAsStr_eq_chunkDiff] at hdiff
  obtain ⟨i, htake, hle, hla, hne, hrowA, hrowE⟩ := chunkDiff_some _ _ e a r hdiff
  refine ⟨i, htake, hle, hla, hne, hrowA, hrowE, ?_⟩
  cases hga : (chunkedLines as_ 64)[i]? with
  | some ca =>
    rw [hrowA ca hga]
    exact chunkedLines_row as_ 64 i ca hga
  | none =>
    cases hge : (chunkedLines es 64)[i]? with
    | none =>
      rw [hga, hge] at hne
      simp at hne
    | some ce =>
      rw [hrowE hga ce hge]
      rw [chunkedLines_row es 64 i ce hge]
      rw [htake]

theorem claim_C7_witness :
    ∃ i, ((chunkedLines (sl ("a")) 64).take i).map Prod.fst =
          ((chunkedLines (sl ("b")) 64).take i).map Prod.fst ∧
      i ≤ (chunkedLines (sl ("a")) 64).length ∧ i ≤ (chunkedLines (sl ("b")) 64).length ∧
      ((chunkedLines (sl ("a")) 64)[i]?).map Prod.fst ≠
        ((chunkedLines (sl ("b")) 64)[i]?).map Prod.fst ∧
      (∀ ch, (chunkedLines (sl ("b")) 64)[i]? = some ch → 1 = ch.2) ∧
      ((chunkedLines (sl ("b")) 64)[i]? = none →
        ∀ ch, (chunkedLines (sl ("a")) 64)[i]? = some ch → 1 = ch.2) ∧
      1 = 1 + countNl ((((chunkedLines (sl ("b")) 64).take i).map Prod.fst).flatten) :=
  claim_C7 [97] [98] (sl ("a")) (sl ("b")) (by decide) (by decide)
    (some (sl ("a"))) (some (sl ("b"))) 1 (by decide)

end Cliche
